import Mathlib

/-!
# OpenDev-Studio file-tree synchronization engine: a verification development

This file gives a shallow embedding of the file-tree synchronization core of
the OpenDev-Studio workspace client (`src/frontend/src/utils/fileHelpers.js`
and the tree/refresh/chat logic of `src/frontend/src/App.jsx`), and proves
the stated properties of that code.

## Data model

A tree node in the source is a plain object
`{id, name, type, isOpen, content, children}` where `children` is an array of
nodes (possibly `undefined`) and `content` is an optional string (`undefined`
means "not yet loaded").  We embed forests of such nodes with a first-child /
next-sibling encoding: a `Forest` is either empty or a head node (carrying its
five scalar fields and its own `children` forest) together with the forest of
its remaining siblings.  This is exactly an ordered list of rose trees, and it
gives plain structural recursion for every traversal in the source.
`undefined` children are identified with the empty forest: every operation in
the source treats a missing `children` array and an empty one identically
(mapping over `[]` produces `[]`, and the `if (node.children)` guards only
skip a recursion that would be a no-op on `[]`).  `content` is `Option String`
with `none` for `undefined`, a distinction the merge engine does observe.
-/

inductive NodeType where
  | file
  | folder
deriving DecidableEq, Repr

/-- A forest of file-tree nodes in first-child / next-sibling form:
`node id name type isOpen content children sibling` is the node at the head
of the array together with (`sibling`) the rest of the array. -/
inductive Forest where
  | nil
  | node (id name : String) (type : NodeType) (isOpen : Bool)
      (content : Option String) (children sibling : Forest)
deriving DecidableEq, Repr

/-- The scalar fields of one node (everything except its `children` array),
used to state properties about "a node of the tree". -/
structure NodeData where
  id : String
  name : String
  type : NodeType
  isOpen : Bool
  content : Option String
deriving DecidableEq, Repr

/-- All nodes of a forest, in depth-first preorder (node, then its children,
then its siblings) — the traversal order every function of the source uses. -/
def allNodes : Forest → List NodeData
  | .nil => []
  | .node i n t o c ch sib => ⟨i, n, t, o, c⟩ :: (allNodes ch ++ allNodes sib)

/-- Erase every `content` field, keeping ids, names, types, `isOpen` flags and
the whole children structure: the "tree shape" of the spec. -/
def shape : Forest → Forest
  | .nil => .nil
  | .node i n t o _ ch sib => .node i n t o none (shape ch) (shape sib)

/-- The data-model invariant: a `file` node never has children and a `folder`
node never has content. -/
def wf : Forest → Bool
  | .nil => true
  | .node _ _ t _ c ch sib =>
    (match t with
     | .file => ch = Forest.nil
     | .folder => c = none) && wf ch && wf sib

/-- Does `needle` occur as a contiguous run inside the haystack? (The
semantics of JavaScript `String.prototype.includes`.) -/
def containsChars (hay needle : List Char) : Bool :=
  match hay with
  | [] => needle.isEmpty
  | c :: rest => needle.isPrefixOf (c :: rest) || containsChars rest needle

/-- `name.toLowerCase().includes(term.toLowerCase())` of the source:
case-insensitive substring test (lower-casing per character, which agrees
with `toLowerCase` on the ASCII file names the client deals in). -/
def containsCI (s term : String) : Bool :=
  containsChars (s.toList.map Char.toLower) (term.toList.map Char.toLower)

/-! ## `fileHelpers.js` -/

/-- `updateFileContent(nodes, fileId, newContent)`: map over the array; a node
whose id matches gets `content` replaced (children untouched — the source
returns without recursing there); any other node is rebuilt with recursively
updated children. -/
def updateFileContent : Forest → String → String → Forest
  | .nil, _, _ => .nil
  | .node i n t o c ch sib, fileId, newContent =>
    if i = fileId then
      .node i n t o (some newContent) ch (updateFileContent sib fileId newContent)
    else
      .node i n t o c (updateFileContent ch fileId newContent)
        (updateFileContent sib fileId newContent)

/-- `filterNodes(nodes, term)`: keep files whose name matches the term
case-insensitively; keep folders whose filtered children are non-empty or
whose own name matches, forcing them open and installing the filtered
children. -/
def filterNodes : Forest → String → Forest
  | .nil, _ => .nil
  | .node i n t o c ch sib, term =>
    match t with
    | .file =>
      if containsCI n term then .node i n t o c ch (filterNodes sib term)
      else filterNodes sib term
    | .folder =>
      let filteredChildren := filterNodes ch term
      if (filteredChildren != Forest.nil) || containsCI n term then
        .node i n t true c filteredChildren (filterNodes sib term)
      else filterNodes sib term

/-- JavaScript `Map.set` on a map represented as its entry list in insertion
order: overwrite in place if the key is present, append otherwise. -/
def mapSet {β : Type} : List (String × β) → String → β → List (String × β)
  | [], k, v => [(k, v)]
  | (k', v') :: rest, k, v =>
    if k' = k then (k', v) :: rest else (k', v') :: mapSet rest k v

/-- JavaScript `Map.has`. -/
def hasKey {β : Type} (m : List (String × β)) (k : String) : Bool :=
  (m.lookup k).isSome

/-- The `traverseOld` pass of `mergeTreeContent`: record `id → content` for
every file node whose content is loaded, in preorder, into the accumulator
map. -/
def collectContent : Forest → List (String × String) → List (String × String)
  | .nil, m => m
  | .node i _ t _ c ch sib, m =>
    let m1 := match t, c with
      | .file, some s => mapSet m i s
      | _, _ => m
    collectContent sib (collectContent ch m1)

/-- The `applyContent` pass of `mergeTreeContent`: copy the new tree, grafting
the recorded content onto every node whose id is in the map. -/
def applyContent (m : List (String × String)) : Forest → Forest
  | .nil => .nil
  | .node i n t o c ch sib =>
    let c' := match m.lookup i with
      | some s => some s
      | none => c
    .node i n t o c' (applyContent m ch) (applyContent m sib)

/-- `mergeTreeContent(oldNodes, newNodes)`. -/
def mergeTreeContent (oldNodes newNodes : Forest) : Forest :=
  applyContent (collectContent oldNodes []) newNodes

/-- `flattenFiles(nodes, map)`: walk the forest in preorder, `Map.set`ting an
entry for every `file` node. The stored value is the node's scalar data. -/
def flattenFiles : Forest → List (String × NodeData) → List (String × NodeData)
  | .nil, m => m
  | .node i n t o c ch sib, m =>
    let m1 := if t = NodeType.file then mapSet m i ⟨i, n, t, o, c⟩ else m
    flattenFiles sib (flattenFiles ch m1)

/-! ## `App.jsx`: live-channel refresh, tree refresh, content re-fetch, chat -/

/-- The debounced-save slot `fileToSave` / `fileToSaveRef`: at most one
pending `{id, content}` pair. -/
structure PendingSave where
  id : String
  content : String
deriving DecidableEq, Repr

/-- The `file_change` branch of the live-channel `onmessage` handler: compute
the file ids whose content is re-fetched.  The source reads
`editingId = fileToSaveRef.current?.id` and re-fetches every open file id
different from it (when no save is pending, `editingId` is `undefined` and no
string id equals it). -/
def refreshTargets (openFiles : List String) (pending : Option PendingSave) : List String :=
  let editingId := pending.map PendingSave.id
  openFiles.filter fun i =>
    match editingId with
    | some e => i != e
    | none => true

/-- The `newFileIds` loop of `fetchFileTree`: iterate the new flatten map in
insertion order, keeping ids absent from the previous map whose node is a
file. -/
def computeNewFileIds (prevMap newMap : List (String × NodeData)) : List String :=
  (newMap.filter fun p => !hasKey prevMap p.1 && p.2.type == NodeType.file).map Prod.fst

/-- The scheduled `setOpenFiles` updater of `fetchFileTree`: append each new
file id to the open set unless it is already there. -/
def openNewTabs (openFiles : List String) (ids : List String) : List String :=
  ids.foldl (fun updated i => if updated.contains i then updated else updated ++ [i]) openFiles

/-- The outcome of one `fetchFileTree` call: the committed tree, the open-file
set, the active file id, and the ids whose content gets fetched by this path. -/
structure TreeRefreshResult where
  files : Forest
  openFiles : List String
  activeFileId : Option String
  fetched : List String
deriving DecidableEq, Repr

/-- `fetchFileTree` (state-updater part, for a successful `/files` response
`newTree`): diff the flatten indices; on a non-first load with new file ids,
open them all, activate the last one and fetch its content; on a first load,
re-fetch the active file if it survives, no save is pending and it is in the
new index; always commit `mergeTreeContent(prevFiles, newTree)`. -/
def fetchFileTree (prevFiles newTree : Forest) (openFiles : List String)
    (activeFileId : Option String) (pending : Option PendingSave) : TreeRefreshResult :=
  let prevMap := flattenFiles prevFiles []
  let newMap := flattenFiles newTree []
  if prevFiles ≠ Forest.nil then
    let newFileIds := computeNewFileIds prevMap newMap
    match newFileIds.getLast? with
    | some lastNewId =>
      ⟨mergeTreeContent prevFiles newTree, openNewTabs openFiles newFileIds,
        some lastNewId, [lastNewId]⟩
    | none =>
      ⟨mergeTreeContent prevFiles newTree, openFiles, activeFileId, []⟩
  else
    match activeFileId with
    | some activeId =>
      if pending.isNone && hasKey newMap activeId then
        ⟨mergeTreeContent prevFiles newTree, openFiles, activeFileId, [activeId]⟩
      else
        ⟨mergeTreeContent prevFiles newTree, openFiles, activeFileId, []⟩
    | none => ⟨mergeTreeContent prevFiles newTree, openFiles, activeFileId, []⟩

/-- The `updateNodeContent` closure inside `fetchFileContent` (a verbatim
in-place copy of `updateFileContent` in the source): replace the content of
the node with the fetched id. -/
def updateNodeContent : Forest → String → String → Forest
  | .nil, _, _ => .nil
  | .node i n t o c ch sib, fileId, newContent =>
    if i = fileId then
      .node i n t o (some newContent) ch (updateNodeContent sib fileId newContent)
    else
      .node i n t o c (updateNodeContent ch fileId newContent)
        (updateNodeContent sib fileId newContent)

/-- One chat message.  In the source a message is a plain object; the
`isStreaming` property is present (and `true`) exactly on agent messages still
receiving chunks, so a missing property is modelled as `false`. -/
structure ChatMsg where
  id : Nat
  role : String
  text : String
  isStreaming : Bool
deriving DecidableEq, Repr

/-- The agent-turn events of the live channel. -/
inductive AgentEvent where
  | chunk (text : String)
  | response (text : String)
  | error (text : String)
deriving DecidableEq, Repr

/-- The agent-event branch of the live-channel `onmessage` handler, acting on
the chat-message sequence and the `isProcessing` flag.  `now` stands for
`Date.now()`.  The source's chunk branch reads `prev[prev.length - 1]`
unconditionally; the message list is initialized non-empty and never shrinks,
so the handler is only ever applied to non-empty lists (on an empty list we
let the chunk start a new message, the branch no theorem relies on). -/
def handleAgentEvent (messages : List ChatMsg) (isProcessing : Bool) (now : Nat) :
    AgentEvent → List ChatMsg × Bool
  | .chunk t =>
    match messages.getLast? with
    | some lastMsg =>
      if lastMsg.role == "agent" && lastMsg.isStreaming then
        (messages.dropLast ++ [{ lastMsg with text := lastMsg.text ++ t }], isProcessing)
      else
        (messages ++ [⟨now, "agent", t, true⟩], isProcessing)
    | none => (messages ++ [⟨now, "agent", t, true⟩], isProcessing)
  | .response t => (messages ++ [⟨now, "agent", t, false⟩], false)
  | .error t => (messages ++ [⟨now, "agent", t, false⟩], false)

/-! ## Spec-side definitions

These definitions follow the wording of the specification (not the source);
they are compared with the source-derived functions above. -/

/-- Does some node of the forest have a name containing the term
case-insensitively?  Applied to a folder's children it reads "the folder
contains at least one matching descendant" (spec §4.1). -/
def hasMatch (term : String) : Forest → Bool
  | .nil => false
  | .node _ n _ _ _ ch sib => containsCI n term || hasMatch term ch || hasMatch term sib

/-- Modelled from the spec's description of `filterNodes`: keep the files
whose name contains the term case-insensitively, and the folders that either
match by name or contain at least one matching descendant; kept folders are
forced open and carry their recursively filtered children. -/
def filterSpec : Forest → String → Forest
  | .nil, _ => .nil
  | .node i n t o c ch sib, term =>
    match t with
    | .file =>
      if containsCI n term then .node i n t o c ch (filterSpec sib term)
      else filterSpec sib term
    | .folder =>
      if containsCI n term || hasMatch term ch then
        .node i n t true c (filterSpec ch term) (filterSpec sib term)
      else filterSpec sib term

/-- Keep every node, leave files untouched, and force every folder open:
what `filterNodes` actually does on the empty search term. -/
def forceOpen : Forest → Forest
  | .nil => .nil
  | .node i n t o c ch sib =>
    match t with
    | .file => .node i n t o c ch (forceOpen sib)
    | .folder => .node i n t true c (forceOpen ch) (forceOpen sib)

/-- The per-node effect of `applyContent`: replace the content when the map
holds the node's id. -/
def graft (m : List (String × String)) (nd : NodeData) : NodeData :=
  { nd with content := match m.lookup nd.id with
      | some s => some s
      | none => nd.content }

/-! ## Map lemmas -/

theorem lookup_cons {β : Type} (k k₀ : String) (v₀ : β) (rest : List (String × β)) :
    List.lookup k ((k₀, v₀) :: rest) = if k = k₀ then some v₀ else List.lookup k rest := by
  by_cases h : k = k₀
  · simp [List.lookup, h]
  · simp only [List.lookup, if_neg h]
    rw [show (k == k₀) = false by simpa using h]

theorem lookup_mapSet_self {β : Type} (m : List (String × β)) (k : String) (v : β) :
    (mapSet m k v).lookup k = some v := by
  induction m with
  | nil => simp [mapSet, lookup_cons]
  | cons p rest ih =>
    obtain ⟨k', v'⟩ := p
    by_cases h : k' = k
    · subst h
      simp [mapSet, lookup_cons]
    · simp [mapSet, h, lookup_cons, Ne.symm h, ih]

theorem lookup_mapSet_ne {β : Type} (m : List (String × β)) (k k' : String) (v : β)
    (h : k' ≠ k) : (mapSet m k v).lookup k' = m.lookup k' := by
  induction m with
  | nil => simp [mapSet, lookup_cons, h]
  | cons p rest ih =>
    obtain ⟨k₀, v₀⟩ := p
    by_cases h₀ : k₀ = k
    · subst h₀
      simp [mapSet, lookup_cons, h]
    · simp [mapSet, h₀, lookup_cons, ih]

theorem hasKey_iff_exists {β : Type} (m : List (String × β)) (k : String) :
    hasKey m k = true ↔ ∃ v, (k, v) ∈ m := by
  induction m with
  | nil => simp [hasKey, List.lookup]
  | cons p rest ih =>
    obtain ⟨k₀, v₀⟩ := p
    by_cases h₀ : k₀ = k
    · subst h₀
      simp [hasKey, lookup_cons]
    · simp only [hasKey, lookup_cons, if_neg (by simpa [eq_comm] using h₀ : ¬k = k₀)]
      rw [show hasKey rest k = (rest.lookup k).isSome from rfl] at ih
      rw [ih]
      constructor
      · rintro ⟨v, hv⟩
        exact ⟨v, List.mem_cons_of_mem _ hv⟩
      · rintro ⟨v, hv⟩
        rcases List.mem_cons.mp hv with h | h
        · cases h
          exact absurd rfl h₀
        · exact ⟨v, h⟩

theorem hasKey_mapSet {β : Type} (m : List (String × β)) (k k' : String) (v : β) :
    hasKey (mapSet m k v) k' = (hasKey m k' || k' == k) := by
  by_cases h : k' = k
  · subst h
    simp [hasKey, lookup_mapSet_self]
  · simp [hasKey, lookup_mapSet_ne m k k' v h, h]

/-! ## Flatten/Index lemmas -/

theorem mem_mapSet {β : Type} (m : List (String × β)) (k k' : String) (v v' : β)
    (h : (k', v') ∈ mapSet m k v) : (k', v') ∈ m ∨ v' = v := by
  induction m with
  | nil =>
    simp [mapSet] at h
    exact Or.inr h.2
  | cons p rest ih =>
    obtain ⟨k₀, v₀⟩ := p
    by_cases h₀ : k₀ = k
    · subst h₀
      simp only [mapSet, if_pos rfl] at h
      rcases List.mem_cons.mp h with h | h
      · exact Or.inr (by cases h; rfl)
      · exact Or.inl (List.mem_cons_of_mem _ h)
    · simp only [mapSet, if_neg h₀] at h
      rcases List.mem_cons.mp h with h | h
      · exact Or.inl (by cases h; exact List.mem_cons_self _ _)
      · rcases ih h with h | h
        · exact Or.inl (List.mem_cons_of_mem _ h)
        · exact Or.inr h

theorem hasKey_flattenFiles_bool (f : Forest) :
    ∀ (m : List (String × NodeData)) (k : String),
      hasKey (flattenFiles f m) k =
        (hasKey m k ||
          (allNodes f).any fun nd => nd.type == NodeType.file && nd.id == k) := by
  induction f with
  | nil => simp [flattenFiles, allNodes]
  | node i n t o c ch sib ihch ihsib =>
    intro m k
    simp only [flattenFiles, allNodes]
    rw [ihsib, ihch]
    rcases t with _ | _
    · rw [if_pos rfl, hasKey_mapSet]
      have hbeq : (k == i) = (i == k) := by
        by_cases h : k = i
        · subst h
          rfl
        · rw [show (k == i) = false from by simp [h],
              show (i == k) = false from by simp [Ne.symm h]]
      simp [hbeq, List.any_cons, List.any_append, Bool.or_assoc, Bool.or_left_comm,
        Bool.or_comm]
    · rw [if_neg (by decide)]
      simp [List.any_cons, List.any_append, Bool.or_assoc,
        show (NodeType.folder == NodeType.file) = false from by decide]

theorem hasKey_flattenFiles (f : Forest) (k : String) :
    hasKey (flattenFiles f []) k = true ↔
      ∃ nd ∈ allNodes f, nd.type = NodeType.file ∧ nd.id = k := by
  rw [hasKey_flattenFiles_bool]
  simp [hasKey, List.lookup, List.any_eq_true]

theorem flattenFiles_values_file (f : Forest) :
    ∀ (m : List (String × NodeData)) (k : String) (v : NodeData),
      (k, v) ∈ flattenFiles f m → (k, v) ∈ m ∨ v.type = NodeType.file := by
  induction f with
  | nil =>
    intro m k v h
    exact Or.inl h
  | node i n t o c ch sib ihch ihsib =>
    intro m k v h
    simp only [flattenFiles] at h
    rcases ihsib _ _ _ h with h | h
    · rcases ihch _ _ _ h with h | h
      · by_cases ht : t = NodeType.file
        · subst ht
          simp only [if_pos rfl] at h
          rcases mem_mapSet _ _ _ _ _ h with h | h
          · exact Or.inl h
          · subst h
            exact Or.inr rfl
        · rw [if_neg ht] at h
          exact Or.inl h
      · exact Or.inr h
    · exact Or.inr h

/-! ## Merge-engine lemmas -/

theorem allNodes_applyContent (m : List (String × String)) (f : Forest) :
    allNodes (applyContent m f) = (allNodes f).map (graft m) := by
  induction f with
  | nil => simp [applyContent, allNodes]
  | node i n t o c ch sib ihch ihsib =>
    simp [applyContent, allNodes, ihch, ihsib, graft]

theorem shape_applyContent (m : List (String × String)) (f : Forest) :
    shape (applyContent m f) = shape f := by
  induction f with
  | nil => rfl
  | node i n t o c ch sib ihch ihsib =>
    simp [applyContent, shape, ihch, ihsib]

/-- If no file node of `f` with id `k` holds loaded content, the
`traverseOld` pass leaves the entry at `k` alone. -/
theorem lookup_collectContent_of_none (f : Forest) :
    ∀ (m : List (String × String)) (k : String),
      (∀ nd ∈ allNodes f, nd.id = k → nd.type = NodeType.file → nd.content = none) →
      (collectContent f m).lookup k = m.lookup k := by
  induction f with
  | nil =>
    intro m k _
    rfl
  | node i n t o c ch sib ihch ihsib =>
    intro m k h
    simp only [collectContent]
    rw [ihsib _ _ fun nd hnd => h nd (by simp [allNodes, hnd]),
        ihch _ _ fun nd hnd => h nd (by simp [allNodes, hnd])]
    rcases t with _ | _
    · rcases c with _ | s
      · rfl
      · have hik : i ≠ k := by
          intro hik
          have := h ⟨i, n, NodeType.file, o, some s⟩ (by simp [allNodes]) hik rfl
          cases this
        exact lookup_mapSet_ne m i k s (Ne.symm hik)
    · cases c <;> rfl

/-- If every contribution at key `k` writes the same content `C` and the map
already holds `C` at `k`, it still holds `C` after `traverseOld`. -/
theorem lookup_collectContent_stable (f : Forest) :
    ∀ (m : List (String × String)) (k C : String),
      (∀ nd ∈ allNodes f, nd.id = k → nd.type = NodeType.file → nd.content = some C) →
      m.lookup k = some C →
      (collectContent f m).lookup k = some C := by
  induction f with
  | nil =>
    intro m k C _ hm
    exact hm
  | node i n t o c ch sib ihch ihsib =>
    intro m k C h hm
    simp only [collectContent]
    refine ihsib _ _ _ (fun nd hnd => h nd (by simp [allNodes, hnd]))
      (ihch _ _ _ (fun nd hnd => h nd (by simp [allNodes, hnd])) ?_)
    rcases t with _ | _
    · rcases c with _ | s
      · exact hm
      · by_cases hik : i = k
        · subst hik
          have hC : s = C :=
            Option.some.inj (h ⟨i, n, NodeType.file, o, some s⟩ (by simp [allNodes]) rfl rfl)
          subst hC
          exact lookup_mapSet_self m i s
        · rw [show List.lookup k (mapSet m i s) = List.lookup k m from
            lookup_mapSet_ne m i k s (Ne.symm hik)]
          exact hm
    · cases c <;> exact hm

/-- If every node of `f` with id `k` is a file holding content `C` and at
least one node of `f` has id `k`, `traverseOld` records `C` at `k`. -/
theorem lookup_collectContent_of_unique (f : Forest) :
    ∀ (m : List (String × String)) (k C : String),
      (∀ nd ∈ allNodes f, nd.id = k → nd.type = NodeType.file ∧ nd.content = some C) →
      (∃ nd ∈ allNodes f, nd.id = k) →
      (collectContent f m).lookup k = some C := by
  induction f with
  | nil =>
    intro m k C _ hex
    simp [allNodes] at hex
  | node i n t o c ch sib ihch ihsib =>
    intro m k C h hex
    simp only [collectContent]
    have hch : ∀ nd ∈ allNodes ch, nd.id = k → nd.type = NodeType.file ∧ nd.content = some C :=
      fun nd hnd hid => h nd (by simp [allNodes]; tauto) hid
    have hsib : ∀ nd ∈ allNodes sib, nd.id = k → nd.type = NodeType.file ∧ nd.content = some C :=
      fun nd hnd hid => h nd (by simp [allNodes]; tauto) hid
    by_cases hik : i = k
    · subst hik
      obtain ⟨hty, hco⟩ := h ⟨i, n, t, o, c⟩ (by simp [allNodes]) rfl
      have hm1 : (match t, c with
          | NodeType.file, some s => mapSet m i s
          | _, _ => m).lookup i = some C := by
        rw [show t = NodeType.file from hty, show c = some C from hco]
        exact lookup_mapSet_self m i C
      exact lookup_collectContent_stable sib _ i C (fun nd hnd hid _ => (hsib nd hnd hid).2)
        (lookup_collectContent_stable ch _ i C (fun nd hnd hid _ => (hch nd hnd hid).2) hm1)
    · have hm1 : (match t, c with
          | NodeType.file, some s => mapSet m i s
          | _, _ => m).lookup k = m.lookup k := by
        rcases t with _ | _ <;> rcases c with _ | s
        · rfl
        · exact lookup_mapSet_ne m i k s (Ne.symm hik)
        · rfl
        · rfl
      obtain ⟨nd, hnd, hid⟩ := hex
      have hmem : nd = (⟨i, n, t, o, c⟩ : NodeData) ∨ nd ∈ allNodes ch ∨ nd ∈ allNodes sib := by
        simpa [allNodes] using hnd
      rcases hmem with hh | hh | hh
      · rw [hh] at hid
        exact absurd hid hik
      · exact lookup_collectContent_stable sib _ k C
          (fun nd' hnd' hid' _ => (hsib nd' hnd' hid').2)
          (ihch _ k C hch ⟨nd, hh, hid⟩)
      · exact ihsib _ k C hsib ⟨nd, hh, hid⟩

/-! ## Tree-model lemmas -/

theorem updateNodeContent_eq (f : Forest) (fid nc : String) :
    updateNodeContent f fid nc = updateFileContent f fid nc := by
  induction f with
  | nil => rfl
  | node i n t o c ch sib ihch ihsib =>
    by_cases h : i = fid <;>
      simp [updateNodeContent, updateFileContent, h, ihch, ihsib]

theorem shape_updateFileContent (f : Forest) (fid nc : String) :
    shape (updateFileContent f fid nc) = shape f := by
  induction f with
  | nil => rfl
  | node i n t o c ch sib ihch ihsib =>
    by_cases h : i = fid <;> simp [updateFileContent, h, shape, ihch, ihsib]

theorem updateFileContent_of_absent (f : Forest) (fid nc : String)
    (h : ∀ nd ∈ allNodes f, nd.id ≠ fid) : updateFileContent f fid nc = f := by
  induction f with
  | nil => rfl
  | node i n t o c ch sib ihch ihsib =>
    have hi : i ≠ fid := h ⟨i, n, t, o, c⟩ (by simp [allNodes])
    simp only [updateFileContent, if_neg hi]
    rw [ihch fun nd hnd => h nd (by simp [allNodes]; tauto),
        ihsib fun nd hnd => h nd (by simp [allNodes]; tauto)]

theorem allNodes_updateFileContent (f : Forest) (fid nc : String)
    (h : ((allNodes f).map NodeData.id).Nodup) :
    allNodes (updateFileContent f fid nc) =
      (allNodes f).map fun nd =>
        if nd.id = fid then { nd with content := some nc } else nd := by
  induction f with
  | nil => rfl
  | node i n t o c ch sib ihch ihsib =>
    simp only [allNodes, List.map_cons, List.map_append, List.nodup_cons,
      List.mem_append] at h
    obtain ⟨hnotin, happ⟩ := h
    have hch := happ.of_append_left
    have hsib := happ.of_append_right
    by_cases hi : i = fid
    · subst hi
      have hchid : ∀ nd ∈ allNodes ch,
          (if nd.id = i then { nd with content := some nc } else nd) = nd := by
        intro nd hnd
        rw [if_neg]
        intro hid
        exact hnotin (Or.inl (by rw [← hid]; exact List.mem_map_of_mem NodeData.id hnd))
      simp only [updateFileContent, if_pos rfl, allNodes, List.map_cons, if_pos rfl,
        List.map_append]
      rw [ihsib hsib, List.map_congr_left hchid]
      simp
    · simp only [updateFileContent, if_neg hi, allNodes, List.map_cons, if_neg hi,
        List.map_append]
      rw [ihch hch, ihsib hsib]

/-! ## Invariant-preservation lemmas -/

theorem wf_node_iff (i n : String) (t : NodeType) (o : Bool) (c : Option String)
    (ch sib : Forest) :
    wf (.node i n t o c ch sib) = true ↔
      (match t with
        | NodeType.file => ch = Forest.nil
        | NodeType.folder => c = none) ∧ wf ch = true ∧ wf sib = true := by
  rcases t with _ | _ <;> simp [wf, and_assoc]

theorem wf_updateFileContent (f : Forest) (fid nc : String) (hwf : wf f = true)
    (h : ∀ nd ∈ allNodes f, nd.id = fid → nd.type = NodeType.file) :
    wf (updateFileContent f fid nc) = true := by
  induction f with
  | nil => rfl
  | node i n t o c ch sib ihch ihsib =>
    obtain ⟨hhead, hch, hsib⟩ := (wf_node_iff i n t o c ch sib).mp hwf
    have ihch' := ihch hch fun nd hnd => h nd (by simp [allNodes]; tauto)
    have ihsib' := ihsib hsib fun nd hnd => h nd (by simp [allNodes]; tauto)
    by_cases hi : i = fid
    · have hty : t = NodeType.file := h ⟨i, n, t, o, c⟩ (by simp [allNodes]) hi
      subst hty
      simp only [updateFileContent, if_pos hi]
      exact (wf_node_iff _ _ _ _ _ _ _).mpr ⟨hhead, hch, ihsib'⟩
    · simp only [updateFileContent, if_neg hi]
      refine (wf_node_iff _ _ _ _ _ _ _).mpr ⟨?_, ihch', ihsib'⟩
      rcases t with _ | _
      · rw [hhead]
        rfl
      · exact hhead

theorem wf_applyContent (m : List (String × String)) (f : Forest) (hwf : wf f = true)
    (h : ∀ nd ∈ allNodes f, nd.type = NodeType.folder → m.lookup nd.id = none) :
    wf (applyContent m f) = true := by
  induction f with
  | nil => rfl
  | node i n t o c ch sib ihch ihsib =>
    obtain ⟨hhead, hch, hsib⟩ := (wf_node_iff i n t o c ch sib).mp hwf
    have ihch' := ihch hch fun nd hnd => h nd (by simp [allNodes]; tauto)
    have ihsib' := ihsib hsib fun nd hnd => h nd (by simp [allNodes]; tauto)
    simp only [applyContent]
    refine (wf_node_iff _ _ _ _ _ _ _).mpr ⟨?_, ihch', ihsib'⟩
    rcases t with _ | _
    · rw [hhead]
      rfl
    · rw [h ⟨i, n, NodeType.folder, o, c⟩ (by simp [allNodes]) rfl]
      exact hhead

/-! ## Filter lemmas -/

theorem containsCI_empty (s : String) : containsCI s "" = true := by
  show containsChars (s.toList.map Char.toLower) [] = true
  cases s.toList.map Char.toLower with
  | nil => rfl
  | cons c rest => rfl

theorem filterNodes_ne_nil (f : Forest) (term : String) (hwf : wf f = true) :
    (filterNodes f term != Forest.nil) = hasMatch term f := by
  induction f with
  | nil => rfl
  | node i n t o c ch sib ihch ihsib =>
    obtain ⟨hhead, hch, hsib⟩ := (wf_node_iff i n t o c ch sib).mp hwf
    rcases t with _ | _
    · subst hhead
      by_cases hm : containsCI n term = true
      · simp [filterNodes, hm, hasMatch]
      · simp only [Bool.not_eq_true] at hm
        simp [filterNodes, hm, hasMatch, ihsib hsib]
    · simp only [filterNodes, hasMatch]
      rw [show (filterNodes ch term != Forest.nil) = hasMatch term ch from ihch hch]
      by_cases hcond : (hasMatch term ch || containsCI n term) = true
      · rw [if_pos hcond]
        rcases Bool.or_eq_true_iff.mp hcond with hx | hx <;> simp [hx]
      · simp only [Bool.or_eq_true_iff, not_or, Bool.not_eq_true] at hcond
        obtain ⟨h1, h2⟩ := hcond
        simp [h1, h2, ihsib hsib]

theorem filterNodes_eq_filterSpec (f : Forest) (term : String) (hwf : wf f = true) :
    filterNodes f term = filterSpec f term := by
  induction f with
  | nil => rfl
  | node i n t o c ch sib ihch ihsib =>
    obtain ⟨hhead, hch, hsib⟩ := (wf_node_iff i n t o c ch sib).mp hwf
    rcases t with _ | _
    · simp [filterNodes, filterSpec, ihsib hsib]
    · simp only [filterNodes, filterSpec]
      rw [show (filterNodes ch term != Forest.nil) = hasMatch term ch from
        filterNodes_ne_nil ch term hch]
      rw [Bool.or_comm]
      by_cases hcond : (containsCI n term || hasMatch term ch) = true
      · rw [if_pos hcond, ihch hch, ihsib hsib, if_pos hcond]
      · rw [if_neg hcond, ihsib hsib, if_neg hcond]

theorem filterNodes_empty_term (f : Forest) : filterNodes f "" = forceOpen f := by
  induction f with
  | nil => rfl
  | node i n t o c ch sib ihch ihsib =>
    rcases t with _ | _
    · simp [filterNodes, forceOpen, containsCI_empty, ihsib]
    · simp [filterNodes, forceOpen, containsCI_empty, ihch, ihsib]

example : updateFileContent
    (.node "a" "a" .folder false none (.node "b" "b" .file false none .nil .nil) .nil) "b" "x"
    = .node "a" "a" .folder false none (.node "b" "b" .file false (some "x") .nil .nil) .nil := by
  decide

example : filterNodes
    (.node "/a" "a" .folder false none (.node "/a/x.js" "x.js" .file false none .nil .nil) .nil) "x"
    = .node "/a" "a" .folder true none (.node "/a/x.js" "x.js" .file false none .nil .nil) .nil := by
  decide

example : flattenFiles
    (.node "/a" "a" .folder false none (.node "/a/x.js" "x.js" .file false none .nil .nil) .nil) []
    = [("/a/x.js", ⟨"/a/x.js", "x.js", .file, false, none⟩)] := by
  decide

example : mergeTreeContent
    (.node "f" "f" .file false (some "C") .nil .nil)
    (.node "g" "g" .file false none (.nil) (.node "f" "f" .file false none .nil .nil))
    = .node "g" "g" .file false none (.nil) (.node "f" "f" .file false (some "C") .nil .nil) := by
  decide

/-! ## Claim theorems -/

/-- C1: for every old tree containing a file node `f` with loaded content `C`
(ids being unique across a tree, per the data model), and every new tree shape
containing a node with `f`'s id, `mergeTreeContent` returns a tree in which
the node with `f`'s id has content `C` unchanged. -/
theorem merge_preserves_content (oldF newF : Forest) (nd : NodeData) (C : String)
    (hnd : nd ∈ allNodes oldF) (hty : nd.type = NodeType.file)
    (hco : nd.content = some C)
    (huniq : ∀ nd' ∈ allNodes oldF, nd'.id = nd.id → nd' = nd)
    (hnew : ∃ m ∈ allNodes newF, m.id = nd.id) :
    (∀ m ∈ allNodes (mergeTreeContent oldF newF), m.id = nd.id → m.content = some C) ∧
    (∃ m ∈ allNodes (mergeTreeContent oldF newF), m.id = nd.id ∧ m.content = some C) := by
  have hlook : (collectContent oldF []).lookup nd.id = some C :=
    lookup_collectContent_of_unique oldF [] nd.id C
      (fun nd' hnd' hid' => by rw [huniq nd' hnd' hid']; exact ⟨hty, hco⟩)
      ⟨nd, hnd, rfl⟩
  constructor
  · intro m hm hid
    rw [show mergeTreeContent oldF newF
        = applyContent (collectContent oldF []) newF from rfl,
      allNodes_applyContent] at hm
    obtain ⟨m', hm', rfl⟩ := List.mem_map.mp hm
    have hid' : m'.id = nd.id := hid
    simp [graft, hid', hlook]
  · obtain ⟨m', hm', hid⟩ := hnew
    refine ⟨graft (collectContent oldF []) m', ?_, ?_, ?_⟩
    · rw [show mergeTreeContent oldF newF
          = applyContent (collectContent oldF []) newF from rfl,
        allNodes_applyContent]
      exact List.mem_map_of_mem _ hm'
    · exact hid
    · simp [graft, hid, hlook]

/-- Witness for C1 at a concrete pair of trees: the old tree holds file `f`
with content `"C"`, the new shape still contains id `f`, and the merged tree
carries `"C"` at `f`. -/
theorem merge_preserves_content_witness :
    (⟨"f", "f", NodeType.file, false, some "C"⟩ : NodeData) ∈
        allNodes (Forest.node "f" "f" NodeType.file false (some "C") .nil .nil) ∧
    (∀ m ∈ allNodes (mergeTreeContent
        (Forest.node "f" "f" NodeType.file false (some "C") .nil .nil)
        (Forest.node "g" "g" NodeType.file false none .nil
          (Forest.node "f" "f" NodeType.file false none .nil .nil))),
      m.id = "f" → m.content = some "C") :=
  ⟨by decide,
    (merge_preserves_content
      (Forest.node "f" "f" NodeType.file false (some "C") .nil .nil)
      (Forest.node "g" "g" NodeType.file false none .nil
        (Forest.node "f" "f" NodeType.file false none .nil .nil))
      ⟨"f", "f", NodeType.file, false, some "C"⟩ "C"
      (by decide) (by decide) (by decide) (by decide) (by decide)).1⟩

/-- C2: while a save is pending for some id, the `file_change` refresh path
re-fetches exactly the open file ids different from the pending id, and never
the pending id itself. -/
theorem refresh_skips_pending (openFiles : List String) (pid pcontent k : String) :
    (k ∈ refreshTargets openFiles (some ⟨pid, pcontent⟩) ↔ k ∈ openFiles ∧ k ≠ pid) ∧
    pid ∉ refreshTargets openFiles (some ⟨pid, pcontent⟩) := by
  constructor
  · simp [refreshTargets, List.mem_filter]
  · simp [refreshTargets, List.mem_filter]

/-- Witness for C2: with a pending save for `a`, the refresh re-fetches `b`
but never `a`. -/
theorem refresh_skips_pending_witness :
    ("b" ∈ refreshTargets ["a", "b"] (some ⟨"a", "z"⟩) ↔ "b" ∈ ["a", "b"] ∧ "b" ≠ "a") ∧
    "a" ∉ refreshTargets ["a", "b"] (some ⟨"a", "z"⟩) :=
  refresh_skips_pending ["a", "b"] "a" "z" "b"

/-- C4 counterexample: a tree consisting of one folder node has that folder in
its node list, yet `flattenFiles` does not index the folder's id — the flatten
map does not index folder nodes. -/
theorem flatten_missing_folder :
    (∃ nd ∈ allNodes (Forest.node "/a" "a" NodeType.folder false none .nil .nil),
      nd.type = NodeType.folder ∧ nd.id = "/a") ∧
    hasKey (flattenFiles (Forest.node "/a" "a" NodeType.folder false none .nil .nil) []) "/a"
      = false := by
  decide

/-- C4 amended: `flattenFiles` indexes exactly the file nodes of the tree —
an id is a key of the flatten map iff some file node of the tree carries it;
folder nodes are traversed but never indexed. -/
theorem flatten_indexes_exactly_files (f : Forest) (k : String) :
    hasKey (flattenFiles f []) k = true ↔
      ∃ nd ∈ allNodes f, nd.type = NodeType.file ∧ nd.id = k :=
  hasKey_flattenFiles f k

/-- C5 counterexample: on the empty search term `filterNodes` is not the
identity — a closed folder comes back expanded. -/
theorem filterNodes_empty_not_identity :
    filterNodes (Forest.node "a" "a" NodeType.folder false none .nil .nil) "" ≠
      Forest.node "a" "a" NodeType.folder false none .nil .nil := by
  decide

/-- C5 amended: a direct call `filterNodes(tree, "")` keeps every node (every
name contains the empty term) and leaves file nodes unchanged, but returns
every folder expanded (`isOpen = true`); it is the full tree only up to the
forced expansion of folders. -/
theorem filterNodes_empty_term_force_open (f : Forest) :
    filterNodes f "" = forceOpen f :=
  filterNodes_empty_term f

/-- C7: `updateFileContent` replaces the content of the node matching the id
(ids being unique per the data model), keeps id, name, type and `isOpen` of
every node and the whole tree structure, and is the identity when no node
matches. -/
theorem updateContent_frame (f : Forest) (fid nc : String)
    (hNodup : ((allNodes f).map NodeData.id).Nodup) :
    shape (updateFileContent f fid nc) = shape f ∧
    allNodes (updateFileContent f fid nc) =
      ((allNodes f).map fun nd =>
        if nd.id = fid then { nd with content := some nc } else nd) ∧
    ((∀ nd ∈ allNodes f, nd.id ≠ fid) → updateFileContent f fid nc = f) :=
  ⟨shape_updateFileContent f fid nc, allNodes_updateFileContent f fid nc hNodup,
    updateFileContent_of_absent f fid nc⟩

/-- Witness for C7 at a concrete tree: updating `b` inside folder `a`. -/
theorem updateContent_frame_witness :
    ((allNodes (Forest.node "a" "a" NodeType.folder false none
        (Forest.node "b" "b" NodeType.file false none .nil .nil) .nil)).map
      NodeData.id).Nodup ∧
    allNodes (updateFileContent
        (Forest.node "a" "a" NodeType.folder false none
          (Forest.node "b" "b" NodeType.file false none .nil .nil) .nil) "b" "x") =
      ((allNodes (Forest.node "a" "a" NodeType.folder false none
          (Forest.node "b" "b" NodeType.file false none .nil .nil) .nil)).map fun nd =>
        if nd.id = "b" then { nd with content := some "x" } else nd) :=
  ⟨by decide,
    (updateContent_frame
      (Forest.node "a" "a" NodeType.folder false none
        (Forest.node "b" "b" NodeType.file false none .nil .nil) .nil) "b" "x"
      (by decide)).2.1⟩

/-- C10: `mergeTreeContent` returns a tree with exactly the shape of the new
tree — same nodes, order, ids, names, types, `isOpen` flags and children
structure; only content fields may differ. -/
theorem merge_has_new_shape (oldF newF : Forest) :
    shape (mergeTreeContent oldF newF) = shape newF :=
  shape_applyContent (collectContent oldF []) newF

/-! ## Refresh-protocol lemmas -/

theorem mem_openNewTabs (ids : List String) :
    ∀ (openFiles : List String) (k : String),
      k ∈ openNewTabs openFiles ids ↔ k ∈ openFiles ∨ k ∈ ids := by
  induction ids with
  | nil => simp [openNewTabs]
  | cons i rest ih =>
    intro openFiles k
    show k ∈ List.foldl _ openFiles (i :: rest) ↔ _
    rw [List.foldl_cons]
    rw [show List.foldl _ (if openFiles.contains i then openFiles else openFiles ++ [i]) rest
        = openNewTabs (if openFiles.contains i then openFiles else openFiles ++ [i]) rest
      from rfl]
    rw [ih]
    by_cases hc : openFiles.contains i
    · have hi : i ∈ openFiles := by simpa using hc
      rw [if_pos hc]
      simp only [List.mem_cons]
      constructor
      · tauto
      · rintro (h | h | h)
        · exact Or.inl h
        · exact Or.inl (h ▸ hi)
        · exact Or.inr h
    · rw [if_neg hc]
      simp only [List.mem_append, List.mem_singleton, List.mem_cons]
      tauto

theorem mem_computeNewFileIds (prevF newF : Forest) (k : String) :
    k ∈ computeNewFileIds (flattenFiles prevF []) (flattenFiles newF []) ↔
      hasKey (flattenFiles newF []) k = true ∧
        hasKey (flattenFiles prevF []) k = false := by
  simp only [computeNewFileIds, List.mem_map, List.mem_filter]
  constructor
  · rintro ⟨⟨k', v⟩, ⟨hm, hp⟩, rfl⟩
    simp only [Bool.and_eq_true, Bool.not_eq_true', beq_iff_eq] at hp
    exact ⟨(hasKey_iff_exists _ _).mpr ⟨v, hm⟩, hp.1⟩
  · rintro ⟨hnew, hprev⟩
    obtain ⟨v, hv⟩ := (hasKey_iff_exists _ _).mp hnew
    have hvt : v.type = NodeType.file := by
      rcases flattenFiles_values_file newF [] k v hv with h | h
      · simp at h
      · exact h
    exact ⟨(k, v), ⟨hv, by simp [hprev, hvt]⟩, rfl⟩

/-! ## Remaining claim theorems -/

/-- C3: on a non-first refresh, the ids in the new flatten index that are
absent from the old index are exactly the computed new-file ids; each of them
is opened, the last one becomes the active file and is the only content
fetch of this path; ids already present in the old index receive no tab-open,
no activation and no fetch. -/
theorem refresh_new_file_protocol (prevFiles newTree : Forest) (openFiles : List String)
    (activeFileId : Option String) (pending : Option PendingSave)
    (hPrev : prevFiles ≠ Forest.nil)
    (hNew : computeNewFileIds (flattenFiles prevFiles []) (flattenFiles newTree []) ≠ []) :
    ∃ lastId,
      (computeNewFileIds (flattenFiles prevFiles [])
        (flattenFiles newTree [])).getLast? = some lastId ∧
      (fetchFileTree prevFiles newTree openFiles activeFileId pending).activeFileId
        = some lastId ∧
      (fetchFileTree prevFiles newTree openFiles activeFileId pending).fetched = [lastId] ∧
      (∀ k, k ∈ computeNewFileIds (flattenFiles prevFiles []) (flattenFiles newTree []) ↔
        (hasKey (flattenFiles newTree []) k = true ∧
          hasKey (flattenFiles prevFiles []) k = false)) ∧
      (∀ k, k ∈ (fetchFileTree prevFiles newTree openFiles activeFileId pending).openFiles ↔
        (k ∈ openFiles ∨
          k ∈ computeNewFileIds (flattenFiles prevFiles []) (flattenFiles newTree []))) ∧
      (∀ k, hasKey (flattenFiles prevFiles []) k = true →
        ((k ∈ (fetchFileTree prevFiles newTree openFiles activeFileId pending).openFiles ↔
            k ∈ openFiles) ∧
          (fetchFileTree prevFiles newTree openFiles activeFileId pending).activeFileId
            ≠ some k ∧
          k ∉ (fetchFileTree prevFiles newTree openFiles activeFileId pending).fetched)) := by
  have hlast := List.getLast?_eq_getLast_of_ne_nil hNew
  have hr : fetchFileTree prevFiles newTree openFiles activeFileId pending =
      ⟨mergeTreeContent prevFiles newTree,
        openNewTabs openFiles
          (computeNewFileIds (flattenFiles prevFiles []) (flattenFiles newTree [])),
        some ((computeNewFileIds (flattenFiles prevFiles [])
          (flattenFiles newTree [])).getLast hNew),
        [(computeNewFileIds (flattenFiles prevFiles [])
          (flattenFiles newTree [])).getLast hNew]⟩ := by
    rw [fetchFileTree.eq_def, if_pos hPrev]
    simp only [hlast]
  refine ⟨(computeNewFileIds (flattenFiles prevFiles [])
      (flattenFiles newTree [])).getLast hNew,
    hlast, by rw [hr], by rw [hr], ?_, ?_, ?_⟩
  · intro k
    exact mem_computeNewFileIds prevFiles newTree k
  · intro k
    rw [hr]
    exact mem_openNewTabs _ openFiles k
  · intro k hk
    have hlastmem : (computeNewFileIds (flattenFiles prevFiles [])
        (flattenFiles newTree [])).getLast hNew
        ∈ computeNewFileIds (flattenFiles prevFiles []) (flattenFiles newTree []) :=
      List.getLast_mem hNew
    have hlastnew := (mem_computeNewFileIds prevFiles newTree _).mp hlastmem
    have hkne : (computeNewFileIds (flattenFiles prevFiles [])
        (flattenFiles newTree [])).getLast hNew ≠ k := by
      intro he
      rw [he, hk] at hlastnew
      simp at hlastnew
    have hknfi : k ∉ computeNewFileIds (flattenFiles prevFiles [])
        (flattenFiles newTree []) := by
      intro hmem
      have hx := (mem_computeNewFileIds prevFiles newTree k).mp hmem
      rw [hk] at hx
      simp at hx
    refine ⟨?_, ?_, ?_⟩
    · rw [hr]
      simp only [mem_openNewTabs]
      tauto
    · rw [hr]
      intro he
      exact hkne (Option.some.inj he)
    · rw [hr]
      intro he
      exact hkne (List.mem_singleton.mp he).symm

/-- Witness for C3: old index has file `a`, new index has files `a` and `c`;
the refresh activates `c`, fetches only `c`, and opens `c` as a tab. -/
theorem refresh_new_file_protocol_witness :
    (fetchFileTree (Forest.node "a" "a" NodeType.file false none .nil .nil)
      (Forest.node "a" "a" NodeType.file false none .nil
        (Forest.node "c" "c" NodeType.file false none .nil .nil))
      ["a"] (some "a") none).activeFileId = some "c" ∧
    (fetchFileTree (Forest.node "a" "a" NodeType.file false none .nil .nil)
      (Forest.node "a" "a" NodeType.file false none .nil
        (Forest.node "c" "c" NodeType.file false none .nil .nil))
      ["a"] (some "a") none).fetched = ["c"] ∧
    "c" ∈ (fetchFileTree (Forest.node "a" "a" NodeType.file false none .nil .nil)
      (Forest.node "a" "a" NodeType.file false none .nil
        (Forest.node "c" "c" NodeType.file false none .nil .nil))
      ["a"] (some "a") none).openFiles := by
  obtain ⟨lastId, hl, hact, hfetch, hchar, hopen, hold⟩ :=
    refresh_new_file_protocol (Forest.node "a" "a" NodeType.file false none .nil .nil)
      (Forest.node "a" "a" NodeType.file false none .nil
        (Forest.node "c" "c" NodeType.file false none .nil .nil))
      ["a"] (some "a") none (by decide) (by decide)
  have he : computeNewFileIds
      (flattenFiles (Forest.node "a" "a" NodeType.file false none .nil .nil) [])
      (flattenFiles (Forest.node "a" "a" NodeType.file false none .nil
        (Forest.node "c" "c" NodeType.file false none .nil .nil)) []) = ["c"] := by
    decide
  rw [he] at hl
  have hlc : lastId = "c" := by
    cases hl
    rfl
  subst hlc
  refine ⟨hact, hfetch, (hopen "c").mpr (Or.inr ?_)⟩
  rw [he]
  exact List.mem_singleton.mpr rfl

/-- C6: for a tree of the data model and a non-empty term, `filterNodes`
returns exactly the files whose name contains the term case-insensitively and
the folders that match by name or contain a matching descendant, folders
forced open with recursively filtered children (the spec-side
`filterSpec`). -/
theorem filterNodes_characterization (f : Forest) (term : String)
    (_hterm : term ≠ "") (hwf : wf f = true) :
    filterNodes f term = filterSpec f term :=
  filterNodes_eq_filterSpec f term hwf

/-- Witness for C6 at the spec's end-to-end example: folder `/a` with file
`/a/x.js`, term `"x"`. -/
theorem filterNodes_characterization_witness :
    ("x" : String) ≠ "" ∧
    wf (Forest.node "/a" "a" NodeType.folder false none
      (Forest.node "/a/x.js" "x.js" NodeType.file false none .nil .nil) .nil) = true ∧
    filterNodes (Forest.node "/a" "a" NodeType.folder false none
        (Forest.node "/a/x.js" "x.js" NodeType.file false none .nil .nil) .nil) "x" =
      filterSpec (Forest.node "/a" "a" NodeType.folder false none
        (Forest.node "/a/x.js" "x.js" NodeType.file false none .nil .nil) .nil) "x" :=
  ⟨by decide, by decide,
    filterNodes_characterization
      (Forest.node "/a" "a" NodeType.folder false none
        (Forest.node "/a/x.js" "x.js" NodeType.file false none .nil .nil) .nil)
      "x" (by decide) (by decide)⟩

/-- C8: an `agent_chunk` event appends its text to the last message when that
message is a streaming agent message and otherwise appends a new streaming
agent message, leaving the processing flag alone; `agent_response` and
`agent_error` append a new finalized message and clear the processing flag. -/
theorem agent_event_handling (messages : List ChatMsg) (proc : Bool) (now : Nat)
    (t : String) :
    (∀ last, messages.getLast? = some last → last.role = "agent" →
      last.isStreaming = true →
      handleAgentEvent messages proc now (.chunk t) =
        (messages.dropLast ++ [{ last with text := last.text ++ t }], proc)) ∧
    (∀ last, messages.getLast? = some last →
      (last.role ≠ "agent" ∨ last.isStreaming = false) →
      handleAgentEvent messages proc now (.chunk t) =
        (messages ++ [⟨now, "agent", t, true⟩], proc)) ∧
    handleAgentEvent messages proc now (.response t) =
      (messages ++ [⟨now, "agent", t, false⟩], false) ∧
    handleAgentEvent messages proc now (.error t) =
      (messages ++ [⟨now, "agent", t, false⟩], false) := by
  refine ⟨?_, ?_, rfl, rfl⟩
  · intro last hlast hrole hstream
    simp [handleAgentEvent, hlast, hrole, hstream]
  · intro last hlast hcond
    rcases hcond with hrole | hstream
    · have : (last.role == "agent") = false := by
        simpa using hrole
      simp [handleAgentEvent, hlast, this]
    · simp [handleAgentEvent, hlast, hstream]

/-- Witness for C8: a chunk extends the streaming agent message `"He"` by
`"llo"`. -/
theorem agent_event_handling_witness :
    handleAgentEvent [⟨1, "agent", "He", true⟩] true 5 (.chunk "llo") =
      ([⟨1, "agent", "Hello", true⟩], true) := by
  have h := (agent_event_handling [⟨1, "agent", "He", true⟩] true 5 "llo").1
    ⟨1, "agent", "He", true⟩ (by decide) (by decide) (by decide)
  exact h.trans (by decide)

/-- C9 counterexample: `updateFileContent` called with a folder's id grafts
content onto the folder, so the invariant "a folder never has content" is not
preserved by every tree operation as claimed. -/
theorem update_folder_breaks_invariant :
    wf (Forest.node "a" "a" NodeType.folder false none .nil .nil) = true ∧
    wf (updateFileContent
      (Forest.node "a" "a" NodeType.folder false none .nil .nil) "a" "x") = false := by
  decide

/-- C9 amended: the invariant (files never have children, folders never have
content) is preserved by `updateFileContent` and the re-fetch updater when the
targeted id belongs only to file nodes, and by `mergeTreeContent` when no
folder id of the new tree is an id the old tree holds loaded file content
for. -/
theorem invariant_preservation (f oldF newF : Forest) (fid nc : String)
    (hwf : wf f = true)
    (hfile : ∀ nd ∈ allNodes f, nd.id = fid → nd.type = NodeType.file)
    (_hwfOld : wf oldF = true) (hwfNew : wf newF = true)
    (hfolder : ∀ nd ∈ allNodes newF, nd.type = NodeType.folder →
      hasKey (collectContent oldF []) nd.id = false) :
    wf (updateFileContent f fid nc) = true ∧
    wf (updateNodeContent f fid nc) = true ∧
    wf (mergeTreeContent oldF newF) = true := by
  refine ⟨wf_updateFileContent f fid nc hwf hfile, ?_, ?_⟩
  · rw [updateNodeContent_eq]
    exact wf_updateFileContent f fid nc hwf hfile
  · refine wf_applyContent (collectContent oldF []) newF hwfNew ?_
    intro nd hnd hty
    have hx := hfolder nd hnd hty
    rw [hasKey] at hx
    exact Option.not_isSome_iff_eq_none.mp (by simp [hx])

/-- Witness for C9 amended: updating file `b`, and merging an old tree with
loaded file `f` into a new shape with folder `d` and file `f`. -/
theorem invariant_preservation_witness :
    wf (updateFileContent
      (Forest.node "b" "b" NodeType.file false none .nil .nil) "b" "x") = true ∧
    wf (mergeTreeContent
      (Forest.node "f" "f" NodeType.file false (some "C") .nil .nil)
      (Forest.node "d" "d" NodeType.folder false none
        (Forest.node "f" "f" NodeType.file false none .nil .nil) .nil)) = true := by
  have h := invariant_preservation
    (Forest.node "b" "b" NodeType.file false none .nil .nil)
    (Forest.node "f" "f" NodeType.file false (some "C") .nil .nil)
    (Forest.node "d" "d" NodeType.folder false none
      (Forest.node "f" "f" NodeType.file false none .nil .nil) .nil)
    "b" "x" (by decide) (by decide) (by decide) (by decide) (by decide)
  exact ⟨h.1, h.2.2⟩
